import Mathlib

/-!
Verification of the mycal continuous-active-learning retrieval engine.

Each section embeds one Rust module of the repository as executable Lean
definitions (machine integers become `Nat` with explicit `% 2^32` where
overflow matters; fallible code returns `Option`/`Except`; stateful code is
explicit state passing), and proves or refutes the specification claims
about it.
-/

namespace Mycal

/-! ## src/compress.rs — variable-byte and double-vbyte ("magic") codec

Bytes are modelled as natural numbers below 256.  `u32` arithmetic is
modelled as `Nat` with `% U32` at every operation that can overflow
(release-mode wrapping semantics); a shift amount on a `u32` is masked
`% 32` as in release mode.
-/

def U32 : ℕ := 2 ^ 32

def MAGIC_F : ℕ := 4

/-- `vbyte_bytes_required` from compress.rs. -/
def vbyte_bytes_required (value : ℕ) : ℕ :=
  if value < 2 ^ 7 then 1
  else if value < 2 ^ 14 then 2
  else if value < 2 ^ 21 then 3
  else if value < 2 ^ 28 then 4
  else 5

/-- `vbyte_encode` from compress.rs: emit 7-bit groups little-endian, the
most-significant bit set on every byte except the last.  The returned list
is what the Rust loop pushes onto the `VecDeque`. -/
def vbyte_encode (v : ℕ) : List ℕ :=
  if h : v < 128 then [v]
  else (v % 128 + 128) :: vbyte_encode (v / 128)
decreasing_by exact Nat.div_lt_self (by omega) (by omega)

/-- Loop body of `vbyte_decode` from compress.rs, with the accumulator
`value`, current `shift` and `bytes_read` count made explicit.  A byte with
its most-significant bit clear (`byte & 0x80 == 0`, i.e. `b < 128` for a
byte) ends the loop; an exhausted buffer (`pop_front` returning `None`)
also ends the loop, with no error indication.  `value |= x << shift` is a
release-mode `u32` operation: the shift amount is masked `% 32` and the
result wraps `% U32`. -/
def vbyte_decode_aux : List ℕ → ℕ → ℕ → ℕ → ℕ × ℕ × List ℕ
  | [], value, _, n => (value, n, [])
  | b :: rest, value, shift, n =>
    let value' := value ||| ((b % 128) <<< (shift % 32) % U32)
    if b < 128 then (value', n + 1, rest)
    else vbyte_decode_aux rest value' (shift + 7) (n + 1)

/-- `vbyte_decode` from compress.rs: returns the decoded value, the number
of bytes read, and the remaining buffer (the `VecDeque` after the pops). -/
def vbyte_decode (buf : List ℕ) : ℕ × ℕ × List ℕ :=
  vbyte_decode_aux buf 0 0 0

/-- Loop of `VbyteEncodedBuffer::read` from compress.rs: unlike
`vbyte_decode`, running off the end of the buffer is an error. -/
def veb_read_aux : List ℕ → ℕ → ℕ → Except String (ℕ × List ℕ)
  | [], _, _ => .error "Attempt to read off end of buffer"
  | b :: rest, value, shift =>
    let value' := value ||| ((b % 128) <<< (shift % 32) % U32)
    if b < 128 then .ok (value', rest)
    else veb_read_aux rest value' (shift + 7)

/-- `VbyteEncodedBuffer::read` from compress.rs, the buffer from the
current index onward modelled as a list. -/
def veb_read (buf : List ℕ) : Except String (ℕ × List ℕ) :=
  veb_read_aux buf 0 0

/-- `encode_magic` from compress.rs.  `docgap - 1` is a `u32` subtraction,
modelled with the wrap-around `+ (U32 - 1)`; the multiplications and
additions wrap `% U32`. -/
def encode_magic (docgap freq : ℕ) : List ℕ :=
  if freq < MAGIC_F then
    vbyte_encode (((docgap + (U32 - 1)) % U32 * MAGIC_F + freq) % U32)
  else
    vbyte_encode (docgap * MAGIC_F % U32) ++
      vbyte_encode ((freq - MAGIC_F + 1) % U32)

/-- `decode_magic` from compress.rs: read one vbyte value; a nonzero
residue mod `MAGIC_F` carries the frequency inline, otherwise a second
vbyte value follows.  `MAGIC_F + freq - 1` is `u32` arithmetic, wrapping at
both operations. -/
def decode_magic (buf : List ℕ) : (ℕ × ℕ) × List ℕ :=
  let r := vbyte_decode buf
  let decoded := r.1
  if decoded % MAGIC_F > 0 then
    ((1 + decoded / MAGIC_F, decoded % MAGIC_F), r.2.2)
  else
    let r2 := vbyte_decode r.2.2
    ((decoded / MAGIC_F, ((MAGIC_F + r2.1) % U32 + (U32 - 1)) % U32), r2.2.2)

/-- Disjoint-bit-range `or` is addition: the accumulated low bits below
`2 ^ s` do not overlap a value shifted up by `s`. -/
theorem lor_mul_pow_eq_add {a c s : ℕ} (ha : a < 2 ^ s) :
    a ||| c * 2 ^ s = a + c * 2 ^ s := by
  apply Nat.eq_of_testBit_eq
  intro i
  have hadd := Nat.testBit_mul_pow_two_add c ha i
  rw [Nat.mul_comm c (2 ^ s)] at *
  rw [Nat.testBit_or, Nat.add_comm a (2 ^ s * c), hadd, Nat.testBit_mul_pow_two]
  by_cases h : i < s
  · simp [h, Nat.not_le.mpr h]
  · have : a.testBit i = false := Nat.testBit_lt_two_pow (lt_of_lt_of_le ha
      (Nat.pow_le_pow_right (by omega) (by omega)))
    simp [h, Nat.le_of_not_lt h, this]

/-- Main vbyte round-trip invariant: decoding the encoding of `v` shifted
into position `s` on top of low bits `acc` consumes exactly the encoded
bytes and accumulates `acc + v * 2 ^ s`. -/
theorem vbyte_decode_aux_encode {v : ℕ} :
    ∀ {acc s : ℕ} (n : ℕ) (rest : List ℕ), v * 2 ^ s < U32 → s < 32 → acc < 2 ^ s →
    vbyte_decode_aux (vbyte_encode v ++ rest) acc s n =
      (acc + v * 2 ^ s, n + (vbyte_encode v).length, rest) := by
  induction v using Nat.strong_induction_on with
  | _ v ih =>
    intro acc s n rest hfit hs hacc
    rw [vbyte_encode]
    by_cases hv : v < 128
    · simp only [dif_pos hv, List.cons_append, List.nil_append, vbyte_decode_aux,
        List.length_cons, List.length_nil]
      have hsh : v % 128 = v := Nat.mod_eq_of_lt hv
      have hmod : v <<< (s % 32) % U32 = v * 2 ^ s := by
        rw [Nat.mod_eq_of_lt hs, Nat.shiftLeft_eq, Nat.mod_eq_of_lt hfit]
      rw [if_pos hv]
      simp only [hsh, hmod]
      rw [lor_mul_pow_eq_add hacc]
    · have hrec : v / 128 < v := Nat.div_lt_self (by omega) (by omega)
      have hv128 : 128 ≤ v := by omega
      -- the step invariant: the remaining value still fits above s + 7
      have hfit' : v / 128 * 2 ^ (s + 7) < U32 := by
        calc v / 128 * 2 ^ (s + 7) = v / 128 * 128 * 2 ^ s := by ring_nf
        _ ≤ v * 2 ^ s := by
          have : v / 128 * 128 ≤ v := Nat.div_mul_le_self v 128
          exact Nat.mul_le_mul_right _ this
        _ < U32 := hfit
      have hs' : s + 7 < 32 := by
        have h1 : 2 ^ (s + 7) ≤ v * 2 ^ s := by
          rw [Nat.pow_add]
          calc 2 ^ s * 2 ^ 7 = 2 ^ 7 * 2 ^ s := by ring
          _ ≤ v * 2 ^ s := Nat.mul_le_mul_right _ (by omega)
        have h2 : 2 ^ (s + 7) < 2 ^ 32 := lt_of_le_of_lt h1 hfit
        by_contra hcon
        exact absurd h2 (not_lt.mpr (Nat.pow_le_pow_right (by omega) (by omega)))
      simp only [dif_neg hv, List.cons_append, vbyte_decode_aux, List.length_cons]
      have hb : ¬ (v % 128 + 128 < 128) := by omega
      rw [if_neg hb]
      have hpl : (v % 128 + 128) % 128 = v % 128 := by omega
      have hmod : (v % 128) <<< (s % 32) % U32 = v % 128 * 2 ^ s := by
        rw [Nat.mod_eq_of_lt hs, Nat.shiftLeft_eq, Nat.mod_eq_of_lt]
        calc v % 128 * 2 ^ s ≤ v * 2 ^ s := Nat.mul_le_mul_right _ (Nat.mod_le v 128)
        _ < U32 := hfit
      have hacc' : acc + v % 128 * 2 ^ s < 2 ^ (s + 7) := by
        have : v % 128 * 2 ^ s ≤ 127 * 2 ^ s := Nat.mul_le_mul_right _ (by omega)
        have h2 : 2 ^ (s + 7) = 128 * 2 ^ s := by ring
        omega
      rw [hpl, hmod, lor_mul_pow_eq_add hacc]
      rw [ih (v / 128) hrec (n + 1) rest hfit' hs' hacc']
      have hsplit : v % 128 + v / 128 * 128 = v := by omega
      have hval : acc + v % 128 * 2 ^ s + v / 128 * 2 ^ (s + 7) = acc + v * 2 ^ s := by
        calc acc + v % 128 * 2 ^ s + v / 128 * 2 ^ (s + 7)
            = acc + (v % 128 + v / 128 * 128) * 2 ^ s := by ring
        _ = acc + v * 2 ^ s := by rw [hsplit]
      have hlen : n + 1 + (vbyte_encode (v / 128)).length =
          n + ((vbyte_encode (v / 128)).length + 1) := by omega
      rw [hval, hlen]

/-- Vbyte round-trip: decoding the encoding of any `u32` value yields the
value, the byte count, and the untouched rest of the buffer. -/
theorem vbyte_decode_encode {v : ℕ} (hv : v < U32) (rest : List ℕ) :
    vbyte_decode (vbyte_encode v ++ rest) =
      (v, (vbyte_encode v).length, rest) := by
  have := @vbyte_decode_aux_encode v 0 0 0 rest
    (by simpa using hv) (by omega) (by omega)
  simpa [vbyte_decode] using this

theorem vbyte_decode_encode_nil {v : ℕ} (hv : v < U32) :
    vbyte_decode (vbyte_encode v) = (v, (vbyte_encode v).length, []) := by
  have := vbyte_decode_encode hv []
  simpa using this

/-- Single-byte case of the encoder, for concrete evaluation. -/
theorem vbyte_encode_lt {v : ℕ} (h : v < 128) : vbyte_encode v = [v] := by
  rw [vbyte_encode]; simp [h]

/-- Claim C8 counterexample: at `g = 2^30, tf = 4` the first emitted magic
value is `g * 4`, which wraps to `0` modulo `2^32`, so decoding the
encoding returns docgap `0` instead of `2^30`: the round-trip fails for
these 32-bit values `g ≥ 1`, `tf ≥ 1`. -/
theorem magic_round_trip_overflow_cex :
    decode_magic (encode_magic (2 ^ 30) 4) = ((0, 4), []) ∧ (2 ^ 30 : ℕ) ≠ 0 := by
  constructor
  · have henc : encode_magic (2 ^ 30) 4 = [0, 1] := by
      rw [encode_magic, if_neg (by norm_num [MAGIC_F])]
      have e0 : 2 ^ 30 * MAGIC_F % U32 = 0 := by norm_num [MAGIC_F, U32]
      have e1 : (4 - MAGIC_F + 1) % U32 = 1 := by norm_num [MAGIC_F, U32]
      rw [e0, e1, vbyte_encode_lt (by norm_num), vbyte_encode_lt (by norm_num)]
      rfl
    rw [henc]
    decide
  · norm_num

/-- Claim C8 (amended): the double-vbyte round-trip
`decode_magic (encode_magic g tf) = (g, tf)` holds for 32-bit values
`g ≥ 1`, `tf ≥ 1` whenever the emitted magic value fits in 32 bits —
`(g-1)*4 + tf < 2^32` when `tf < 4`, and `g*4 < 2^32` otherwise.  (The
encoding emits one vbyte value `(g-1)*4 + tf` when `tf < 4` and two vbyte
values `g*4` then `tf - 4 + 1` otherwise, by definition of
`encode_magic`.) -/
theorem magic_round_trip (g tf : ℕ) (hg1 : 1 ≤ g) (hg : g < U32)
    (htf1 : 1 ≤ tf) (htf : tf < U32)
    (hfit1 : tf < MAGIC_F → (g - 1) * MAGIC_F + tf < U32)
    (hfit2 : MAGIC_F ≤ tf → g * MAGIC_F < U32) :
    decode_magic (encode_magic g tf) = ((g, tf), []) := by
  have hU : U32 = 4294967296 := by norm_num [U32]
  have hM : MAGIC_F = 4 := rfl
  by_cases htf4 : tf < MAGIC_F
  · have hmfit : (g - 1) * MAGIC_F + tf < U32 := hfit1 htf4
    have e1 : (g + (U32 - 1)) % U32 = g - 1 := by
      rw [hU] at hg ⊢; omega
    have e2 : ((g - 1) * MAGIC_F + tf) % U32 = (g - 1) * MAGIC_F + tf :=
      Nat.mod_eq_of_lt hmfit
    have henc : encode_magic g tf = vbyte_encode ((g - 1) * MAGIC_F + tf) := by
      rw [encode_magic, if_pos htf4, e1, e2]
    rw [henc, decode_magic, vbyte_decode_encode_nil hmfit]
    have hmod : ((g - 1) * MAGIC_F + tf) % MAGIC_F = tf := by
      rw [hM] at htf4 ⊢; omega
    have hdiv : 1 + ((g - 1) * MAGIC_F + tf) / MAGIC_F = g := by
      rw [hM] at htf4 ⊢; omega
    simp only [hmod, hdiv]
    rw [if_pos (by omega)]
  · have htfge : MAGIC_F ≤ tf := le_of_not_lt htf4
    have hgfit : g * MAGIC_F < U32 := hfit2 htfge
    have e0 : g * MAGIC_F % U32 = g * MAGIC_F := Nat.mod_eq_of_lt hgfit
    have hsec : tf - MAGIC_F + 1 < U32 := by rw [hU] at htf ⊢; rw [hM] at htfge ⊢; omega
    have e1 : (tf - MAGIC_F + 1) % U32 = tf - MAGIC_F + 1 := Nat.mod_eq_of_lt hsec
    have henc : encode_magic g tf =
        vbyte_encode (g * MAGIC_F) ++ vbyte_encode (tf - MAGIC_F + 1) := by
      rw [encode_magic, if_neg htf4, e0, e1]
    rw [henc, decode_magic, vbyte_decode_encode hgfit]
    have hmod : g * MAGIC_F % MAGIC_F = 0 := by rw [hM]; omega
    simp only [hmod]
    rw [if_neg (by omega), vbyte_decode_encode_nil hsec]
    have hdiv : g * MAGIC_F / MAGIC_F = g := by rw [hM]; omega
    have hfreq : ((MAGIC_F + (tf - MAGIC_F + 1)) % U32 + (U32 - 1)) % U32 = tf := by
      rw [hM] at htfge ⊢; rw [hU] at htf ⊢; omega
    rw [hdiv, hfreq]

/-- Claim C8 witness: the round-trip at `g = 2, tf = 1` (scenario S3). -/
theorem magic_round_trip_witness :
    decode_magic (encode_magic 2 1) = ((2, 1), []) :=
  magic_round_trip 2 1 (by norm_num) (by norm_num [U32]) (by norm_num)
    (by norm_num [U32]) (fun _ => by norm_num [MAGIC_F, U32])
    (fun h => by norm_num [MAGIC_F] at h)

/-- A buffer all of whose bytes have the most-significant bit set makes
`vbyte_decode` consume everything and return the partial accumulator with
the byte count, with no error surface. -/
theorem vbyte_decode_aux_truncated :
    ∀ (buf : List ℕ) (acc s n : ℕ), (∀ b ∈ buf, 128 ≤ b) →
    ∃ v, vbyte_decode_aux buf acc s n = (v, n + buf.length, [])
  | [], acc, s, n, _ => ⟨acc, by simp [vbyte_decode_aux]⟩
  | b :: rest, acc, s, n, h => by
    have hb : 128 ≤ b := h b (by simp)
    have hrest : ∀ x ∈ rest, 128 ≤ x := fun x hx => h x (by simp [hx])
    obtain ⟨v, hv⟩ := vbyte_decode_aux_truncated rest
      (acc ||| ((b % 128) <<< (s % 32) % U32)) (s + 7) (n + 1) hrest
    refine ⟨v, ?_⟩
    have hlen : n + (b :: rest).length = n + 1 + rest.length := by
      simp [List.length_cons]; omega
    simp only [vbyte_decode_aux, if_neg (by omega : ¬ b < 128)]
    rw [hlen]
    exact hv

/-- On the same truncated buffer, `VbyteEncodedBuffer::read` runs off the
end and reports the error. -/
theorem veb_read_aux_truncated :
    ∀ (buf : List ℕ) (acc s : ℕ), (∀ b ∈ buf, 128 ≤ b) →
    veb_read_aux buf acc s = .error "Attempt to read off end of buffer"
  | [], _, _, _ => rfl
  | b :: rest, acc, s, h => by
    have hb : 128 ≤ b := h b (by simp)
    have hrest : ∀ x ∈ rest, 128 ≤ x := fun x hx => h x (by simp [hx])
    simp only [veb_read_aux, if_neg (by omega : ¬ b < 128)]
    exact veb_read_aux_truncated rest _ (s + 7) hrest

/-- Claim C10: on every byte buffer that ends before a byte with its
most-significant bit clear (the empty buffer included), `vbyte_decode`
returns its partially accumulated value together with the number of bytes
consumed — `(0, 0)` on the empty buffer — and gives no error indication,
whereas `VbyteEncodedBuffer::read` on the same input returns an error. -/
theorem truncated_vbyte_decode_vs_read (buf : List ℕ)
    (h : ∀ b ∈ buf, 128 ≤ b ∧ b < 256) :
    (∃ v, vbyte_decode buf = (v, buf.length, [])) ∧
    vbyte_decode [] = (0, 0, []) ∧
    veb_read buf = .error "Attempt to read off end of buffer" := by
  refine ⟨?_, rfl, ?_⟩
  · simpa [vbyte_decode] using
      vbyte_decode_aux_truncated buf 0 0 0 (fun b hb => (h b hb).1)
  · exact veb_read_aux_truncated buf 0 0 (fun b hb => (h b hb).1)

/-- Claim C10 witness: the two-byte truncated buffer `[0x85, 0x90]`. -/
theorem truncated_vbyte_decode_vs_read_witness :
    (∃ v, vbyte_decode [133, 144] = (v, 2, [])) ∧
    vbyte_decode [] = (0, 0, []) ∧
    veb_read [133, 144] = .error "Attempt to read off end of buffer" :=
  truncated_vbyte_decode_vs_read [133, 144] (by decide)

/-! ## src/lrucache.rs — bounded key→value cache with recency eviction

The `HashMap` is modelled as an association list (insertion order is the
iteration order we use), the recency `VecDeque` as a list with its front
first.  `capacity == 0` disables eviction (`capacity = none`).
-/

/-- `HashMap::get` on the association-list model. -/
def assocLookup {K V : Type} [DecidableEq K] : List (K × V) → K → Option V
  | [], _ => none
  | (k, v) :: rest, key => if k = key then some v else assocLookup rest key

/-- `HashMap::remove` on the association-list model. -/
def assocErase {K V : Type} [DecidableEq K] : List (K × V) → K → List (K × V)
  | [], _ => []
  | (k, v) :: rest, key => if k = key then rest else (k, v) :: assocErase rest key

/-- `VecDeque::remove(position(key))`, as used by `LruCache::get`. -/
def listRemoveFirst {K : Type} [DecidableEq K] : List K → K → List K
  | [], _ => []
  | x :: rest, key => if x = key then rest else x :: listRemoveFirst rest key

structure LruCache (K V : Type) where
  capacity : Option ℕ
  cache : List (K × V)
  order : List K

/-- `LruCache::new` from lrucache.rs. -/
def LruCache.create (K V : Type) (capacity : ℕ) : LruCache K V :=
  if capacity = 0 then ⟨none, [], []⟩ else ⟨some capacity, [], []⟩

/-- `LruCache::contains_key`: no recency update. -/
def LruCache.contains_key {K V : Type} [DecidableEq K]
    (s : LruCache K V) (key : K) : Bool :=
  (assocLookup s.cache key).isSome

/-- `LruCache::insert` from lrucache.rs: a present key is left untouched
(value retained, recency NOT updated); a new key evicts the front of the
recency queue when the cache is at capacity, then is appended at the
back. -/
def LruCache.insert {K V : Type} [DecidableEq K]
    (s : LruCache K V) (key : K) (value : V) : LruCache K V :=
  if (assocLookup s.cache key).isSome then s
  else
    let s1 :=
      match s.capacity with
      | some c =>
        if s.cache.length = c then
          match s.order with
          | oldest :: orest =>
            { s with cache := assocErase s.cache oldest, order := orest }
          | [] => s
          -- `pop_front().unwrap()` would panic on an empty queue; this is
          -- unreachable because `order` and `cache` always have the same
          -- length and the capacity is positive here.
        else s
      | none => s
    { s1 with cache := s1.cache ++ [(key, value)], order := s1.order ++ [key] }

/-- `LruCache::get`: on a hit the key is moved to the back of the recency
queue (recency updated). -/
def LruCache.get {K V : Type} [DecidableEq K]
    (s : LruCache K V) (key : K) : Option V × LruCache K V :=
  match assocLookup s.cache key with
  | some v => (some v, { s with order := listRemoveFirst s.order key ++ [key] })
  | none => (none, s)

/-- `LruCache::clear`. -/
def LruCache.clear {K V : Type} (s : LruCache K V) : LruCache K V :=
  { s with cache := [], order := [] }

/-! ## src/index.rs — postings and the inverted file's read path -/

/-- `Posting` from index.rs. -/
structure Posting where
  doc_id : ℕ
  tf : ℕ
deriving DecidableEq

/-- `PostingList.postings` as a list. -/
abbrev PostingListM := List Posting

/-- `InvertedFile::get_posting_list` from index.rs, with the disk read
(seek to `offsets[tokid]`, read the byte span, deserialize) abstracted as
the map `disk` from tokid to its stored posting list.  On a miss the list
is read from disk and inserted; either way the trailing `cache.get`
refreshes the key's recency.  The `assert_ne!(tokid, 0)` precondition is
carried by callers. -/
def get_posting_list (disk : ℕ → PostingListM)
    (s : LruCache ℕ PostingListM) (tokid : ℕ) :
    Option PostingListM × LruCache ℕ PostingListM :=
  let s1 := if s.contains_key tokid then s else s.insert tokid (disk tokid)
  s1.get tokid

/-- The cache state after one `get_posting_list` call. -/
def gplState (disk : ℕ → PostingListM) (s : LruCache ℕ PostingListM)
    (tokid : ℕ) : LruCache ℕ PostingListM :=
  (get_posting_list disk s tokid).2

/-- Claim C9: with cache capacity 2, lookups in the order `t1,t2,t1,t3`
on distinct nonzero tokids leave `t2` evicted and `t1` still cached —
`get` refreshes recency on the `t1` re-lookup, so the capacity-exceeding
insert of `t3` evicts `t2` as least-recently-used. -/
theorem lru_scenario_t1_t2_t1_t3 (disk : ℕ → PostingListM) (t1 t2 t3 : ℕ)
    (h1 : t1 ≠ 0) (h2 : t2 ≠ 0) (h3 : t3 ≠ 0)
    (h12 : t1 ≠ t2) (h13 : t1 ≠ t3) (h23 : t2 ≠ t3) :
    (gplState disk (gplState disk (gplState disk (gplState disk
        (LruCache.create ℕ PostingListM 2) t1) t2) t1) t3).contains_key t2
        = false ∧
    (gplState disk (gplState disk (gplState disk (gplState disk
        (LruCache.create ℕ PostingListM 2) t1) t2) t1) t3).contains_key t1
        = true := by
  have e0 : LruCache.create ℕ PostingListM 2 = ⟨some 2, [], []⟩ := by
    norm_num [LruCache.create]
  have e1 : gplState disk ⟨some 2, [], []⟩ t1 =
      ⟨some 2, [(t1, disk t1)], [t1]⟩ := by
    norm_num [gplState, get_posting_list, LruCache.contains_key,
      LruCache.insert, LruCache.get, assocLookup, listRemoveFirst]
  have e2 : gplState disk ⟨some 2, [(t1, disk t1)], [t1]⟩ t2 =
      ⟨some 2, [(t1, disk t1), (t2, disk t2)], [t1, t2]⟩ := by
    norm_num [gplState, get_posting_list, LruCache.contains_key,
      LruCache.insert, LruCache.get, assocLookup, listRemoveFirst,
      h12, Ne.symm h12]
  have e3 : gplState disk ⟨some 2, [(t1, disk t1), (t2, disk t2)], [t1, t2]⟩
      t1 = ⟨some 2, [(t1, disk t1), (t2, disk t2)], [t2, t1]⟩ := by
    norm_num [gplState, get_posting_list, LruCache.contains_key,
      LruCache.insert, LruCache.get, assocLookup, listRemoveFirst,
      h12, Ne.symm h12]
  have e4 : gplState disk ⟨some 2, [(t1, disk t1), (t2, disk t2)], [t2, t1]⟩
      t3 = ⟨some 2, [(t1, disk t1), (t3, disk t3)], [t1, t3]⟩ := by
    norm_num [gplState, get_posting_list, LruCache.contains_key,
      LruCache.insert, LruCache.get, assocLookup, assocErase,
      listRemoveFirst, h12, h13, h23, Ne.symm h12, Ne.symm h13, Ne.symm h23]
  rw [e0, e1, e2, e3, e4]
  constructor
  · norm_num [LruCache.contains_key, assocLookup, h12, Ne.symm h23]
  · norm_num [LruCache.contains_key, assocLookup]

/-- Claim C9 witness: the scenario at tokids `1, 2, 3`. -/
theorem lru_scenario_witness :
    (gplState (fun _ => []) (gplState (fun _ => []) (gplState (fun _ => [])
        (gplState (fun _ => []) (LruCache.create ℕ PostingListM 2) 1) 2) 1)
        3).contains_key 2 = false ∧
    (gplState (fun _ => []) (gplState (fun _ => []) (gplState (fun _ => [])
        (gplState (fun _ => []) (LruCache.create ℕ PostingListM 2) 1) 2) 1)
        3).contains_key 1 = true :=
  lru_scenario_t1_t2_t1_t3 (fun _ => []) 1 2 3 (by decide) (by decide)
    (by decide) (by decide) (by decide) (by decide)

/-! ## src/odch.rs — OnDiskCompressedHash (IndexedVocab)

A `HashMap<String, usize>` paired with the `Vec<String>` of keys in
insertion order.  `save` persists only `idx`; `open` rebuilds the map from
the decoded `idx` by enumeration.
-/

structure OnDiskCompressedHash where
  map : List (String × ℕ)
  idx : List String
  finalized : Bool
deriving DecidableEq

/-- `OnDiskCompressedHash::new`. -/
def OnDiskCompressedHash.new : OnDiskCompressedHash := ⟨[], [], false⟩

/-- `OnDiskCompressedHash::get_or_insert`: a fresh key is assigned the id
`idx.len() + 1` (ids start at 1).  The `finalized` panic guard is dead
code — nothing in the module ever sets `finalized`. -/
def OnDiskCompressedHash.get_or_insert (h : OnDiskCompressedHash)
    (key : String) : ℕ × OnDiskCompressedHash :=
  match assocLookup h.map key with
  | some id => (id, h)
  | none =>
    let id := h.idx.length + 1
    (id, { h with map := h.map ++ [(key, id)], idx := h.idx ++ [key] })

/-- `OnDiskCompressedHash::save` writes exactly the `idx` vector (the map
is not persisted). -/
def OnDiskCompressedHash.save (h : OnDiskCompressedHash) : List String :=
  h.idx

/-- `OnDiskCompressedHash::open`: rebuilds the map by
`for (i, el) in idx.iter().enumerate() { map.insert(el, i) }` — the
enumeration index `i` is 0-based. -/
def OnDiskCompressedHash.openFile (idx : List String) : OnDiskCompressedHash :=
  { map := idx.enum.map (fun p => (p.2, p.1)), idx := idx, finalized := false }

/-- `OnDiskCompressedHash::get_idx_for` (same body as `get`). -/
def OnDiskCompressedHash.get_idx_for (h : OnDiskCompressedHash)
    (key : String) : Option ℕ :=
  assocLookup h.map key

/-- `OnDiskCompressedHash::get_key_for`: `idx.get(intid - 1)`; `intid - 1`
is a `usize` subtraction, so `intid == 0` wraps far out of range and the
lookup yields `None` (debug builds panic instead). -/
def OnDiskCompressedHash.get_key_for (h : OnDiskCompressedHash)
    (intid : ℕ) : Option String :=
  if intid = 0 then none else h.idx.get? (intid - 1)

/-- Claim C1 evaluation at the failing input: insert `"a"` then `"b"`
(ids 1 and 2, contiguous from 1, and forward/reverse lookup agree), then
`save` and `open`.  After the round-trip, `get_idx_for "b"` returns 1
instead of the originally assigned 2, and chasing
`get_key_for (get_idx_for "b")` yields `"a"`, not `"b"`: `open` rebuilds
the map with 0-based ids while `get_or_insert` and `get_key_for` are
1-based. -/
theorem odch_open_shifts_ids :
    (OnDiskCompressedHash.new.get_or_insert "a").1 = 1 ∧
    (((OnDiskCompressedHash.new.get_or_insert "a").2.get_or_insert "b").1
      = 2) ∧
    (((OnDiskCompressedHash.new.get_or_insert "a").2.get_or_insert
      "b").2.get_idx_for "b" = some 2) ∧
    (((OnDiskCompressedHash.new.get_or_insert "a").2.get_or_insert
      "b").2.get_key_for 2 = some "b") ∧
    ((OnDiskCompressedHash.openFile
      (((OnDiskCompressedHash.new.get_or_insert "a").2.get_or_insert
        "b").2.save)).get_idx_for "b" = some 1) ∧
    ((OnDiskCompressedHash.openFile
      (((OnDiskCompressedHash.new.get_or_insert "a").2.get_or_insert
        "b").2.save)).get_key_for 1 = some "a") ∧
    some "a" ≠ some "b" ∧ (some 1 ≠ some 2 : Prop) := by
  decide

/-! ## src/lib.rs, src/classifier.rs — feature vectors and the classifier

`f32` is modelled as `ℚ`.  The properties at issue (result ordering,
truncation, the support of `w`, `scale == 1.0`) are exact, and all
concrete evaluation inputs use small integers on which `f32` arithmetic is
itself exact.
-/

structure FeaturePair where
  id : ℕ
  value : ℚ
deriving DecidableEq

structure FeatureVec where
  docid : String
  features : List FeaturePair
  squared_norm : ℚ
deriving DecidableEq

structure Classifier where
  lambda : ℚ
  num_iters : ℕ
  w : List ℚ
  scale : ℚ
  squared_norm : ℚ
deriving DecidableEq

/-- `Classifier::inner_product`: `Σ w[feat.id] * feat.value`, times the
lazy `scale`.  `self.w[feat.id]` panics when `feat.id` is out of bounds;
theorems that depend on the indexing carry the id-bound hypothesis. -/
def Classifier.inner_product (c : Classifier) (x : FeatureVec) : ℚ :=
  (x.features.foldl (fun prod feat => prod + c.w.getD feat.id 0 * feat.value)
    0) * c.scale

/-! ## src/main.rs — `score_collection`, the full-scan scorer

`DocScore` in main.rs implements `Ord` as
`self.score.cmp(&other.score).reverse()` — the comparison is REVERSED, so
the minimum element of a `MinMaxHeap<DocScore>` is the entry with the
highest score.  Ties between equal scores are unspecified in the heap; the
model breaks them deterministically towards the earlier element.
-/

structure DocScore where
  docid : String
  score : ℚ
deriving DecidableEq

/-- `a <= b` under main.rs's reversed `Ord for DocScore`. -/
def DocScore.leRev (a b : DocScore) : Bool := b.score ≤ a.score

/-- Remove one minimum element under the reversed `DocScore` order (that
is, one element of maximal score), as `MinMaxHeap::pop_min` does. -/
def popMinDS : List DocScore → Option (DocScore × List DocScore)
  | [] => none
  | x :: rest =>
    match popMinDS rest with
    | none => some (x, [])
    | some (m, rest') =>
      if x.leRev m then some (x, rest) else some (m, x :: rest')

/-- The `while top_scores.len() > n { top_scores.pop_min(); }` loop: each
pop removes one element, so the loop runs exactly `len - n` times. -/
def popExcess : ℕ → List DocScore → List DocScore
  | 0, heap => heap
  | k + 1, heap =>
    match popMinDS heap with
    | some r => popExcess k r.2
    | none => heap

/-- `MinMaxHeap::into_vec_desc` under the reversed `DocScore` order:
descending in that order is ascending by score.  The unspecified order of
equal elements is refined to a stable insertion. -/
def insertAscScore (d : DocScore) : List DocScore → List DocScore
  | [] => [d]
  | x :: rest =>
    if d.score ≤ x.score then d :: x :: rest else x :: insertAscScore d rest

def into_vec_desc (heap : List DocScore) : List DocScore :=
  heap.foldr insertAscScore []

/-- `score_collection` from main.rs: stream the feature-vector file, push
each `DocScore` into the min-max heap, pop while the heap exceeds
`num_scores`, and return `into_vec_desc` of the final heap. -/
def score_collection (model : Classifier) (n : ℕ)
    (fvs : List FeatureVec) : List DocScore :=
  into_vec_desc (fvs.foldl (fun heap fv =>
    let heap1 := heap ++ [⟨fv.docid, model.inner_product fv⟩]
    popExcess (heap1.length - n) heap1) [])

/-- Claim C2 evaluation at the failing input: three documents with scores
1, 2, 3 and `num_scores = 2`.  Because `DocScore`'s comparison is
reversed, `pop_min` evicts the HIGHEST-scoring document, and
`into_vec_desc` returns ascending scores: the call returns the two
lowest-scoring documents in ascending order, `[("a",1), ("b",2)]`, instead
of the top two in descending order, `[("c",3), ("b",2)]`. -/
theorem score_collection_keeps_lowest :
    score_collection ⟨0, 0, [0, 1], 1, 0⟩ 2
      [⟨"a", [⟨1, 1⟩], 0⟩, ⟨"b", [⟨1, 2⟩], 0⟩, ⟨"c", [⟨1, 3⟩], 0⟩] =
      [⟨"a", 1⟩, ⟨"b", 2⟩] ∧
    ([⟨"a", 1⟩, ⟨"b", 2⟩] : List DocScore) ≠ [⟨"c", 3⟩, ⟨"b", 2⟩] := by
  constructor
  · norm_num [score_collection, Classifier.inner_product, into_vec_desc,
      popExcess, popMinDS, DocScore.leRev, insertAscScore]
  · simp only [ne_eq, List.cons.injEq, DocScore.mk.injEq]
    norm_num

/-! ## src/ptuple.rs and src/bin/build_mapred.rs — the idf artifact

`build_index` step 4 re-reads the unsorted tuples file (tuples grouped by
document, one group per intid in first-ingestion order) and, per document
group, inserts into the map it later writes to the `idf` file.  `f32::log10`
is kept abstract as a parameter `log10F`.
-/

structure PTuple where
  tok : ℕ
  docid : ℕ
  count : ℕ
deriving DecidableEq

/-- `HashMap::insert` on the association-list model: replace an existing
key's value, otherwise append. -/
def assocInsert {K V : Type} [DecidableEq K] :
    List (K × V) → K → V → List (K × V)
  | [], k, v => [(k, v)]
  | (k', v') :: rest, k, v =>
    if k' = k then (k, v) :: rest else (k', v') :: assocInsert rest k v

/-- The step-4 loop of `build_index` in build_mapred.rs, projected to the
state feeding the `idf` artifact: `current_intid`, the feature count of
the in-progress `FeatureVec` (`fv.push` per tuple), and the `df` map.  On
a document change — and once more after the loop — it executes
`df.insert(current_intid, (num_docs / fv.num_features()).log10())`. -/
def buildIdfGo (log10F : ℚ → ℚ) (numDocs : ℕ) :
    List PTuple → ℕ → ℕ → List (ℕ × ℚ) → List (ℕ × ℚ)
  | [], current, fvLen, df =>
    assocInsert df current (log10F ((numDocs : ℚ) / (fvLen : ℚ)))
  | pt :: rest, current, fvLen, df =>
    if pt.docid = current then buildIdfGo log10F numDocs rest current (fvLen + 1) df
    else
      buildIdfGo log10F numDocs rest pt.docid 1
        (assocInsert df current (log10F ((numDocs : ℚ) / (fvLen : ℚ))))

/-- The `idf` artifact written by `build_index` (step 4): the map handed
to `bincode::encode_into_std_write` for the `idf` file.  The first decode
feeds `current_intid`; an empty tuples file propagates the decode error
(`?`), modelled as `none`. -/
def build_idf (log10F : ℚ → ℚ) (numDocs : ℕ) :
    List PTuple → Option (List (ℕ × ℚ))
  | [] => none
  | pt0 :: rest => some (buildIdfGo log10F numDocs (pt0 :: rest) pt0.docid 0 [])

/-- Claim C4 evaluation at the failing input: one document (intid 1)
containing two distinct tokens (tokids 1 and 2), so `N = 1`,
`df[1] = df[2] = 1` and the claimed artifact maps both tokids.  The code
instead writes a single entry keyed by the INTID with value
`log10(N / fv.num_features())`: tokid 2 is not in the artifact's domain at
all, for every interpretation of `log10`. -/
theorem idf_artifact_keyed_by_intid (log10F : ℚ → ℚ) :
    build_idf log10F 1 [⟨1, 1, 1⟩, ⟨2, 1, 1⟩] =
      some [(1, log10F ((1 : ℚ) / (2 : ℚ)))] ∧
    (2 : ℕ) ∉ ([(1, log10F ((1 : ℚ) / (2 : ℚ)))].map Prod.fst) := by
  constructor
  · simp [build_idf, buildIdfGo, assocInsert]
  · simp

/-! ## src/index.rs — `InvertedFile::save` and its offset table

`offsets` is a `Vec<PostInfo>` indexed directly by tokid (see
`get_posting_list`, which reads `self.offsets[tokid]`, and the
`invfile-offsets-to-vec` migration tool which establishes the dense-vector
layout).  `save` however updates it with `Vec::insert`, which SHIFTS every
element at or after the index one place right, and panics when the index
exceeds the current length.
-/

structure PostInfo where
  offset : ℕ
  len : ℕ
deriving DecidableEq

/-- Rust `Vec::insert(index, element)`: shift-insert; panics (`none`) when
`index > len`. -/
def vecInsert {β : Type} (v : List β) (i : ℕ) (a : β) : Option (List β) :=
  if i ≤ v.length then some (v.take i ++ a :: v.drop i) else none

/-- Sort order on postings: the derived lexicographic `Ord` of `Posting`
(`doc_id` first, then `tf`). -/
def postingLe (a b : Posting) : Bool :=
  a.doc_id < b.doc_id || (a.doc_id == b.doc_id && a.tf ≤ b.tf)

def insertPostingSorted (p : Posting) : List Posting → List Posting
  | [] => [p]
  | x :: rest =>
    if postingLe p x then p :: x :: rest else x :: insertPostingSorted p rest

/-- `self.postings.sort()` (a stable sort by the derived `Ord`). -/
def sortPostings (pl : PostingListM) : List Posting :=
  pl.foldr insertPostingSorted []

/-- `magic_bytes_required` from compress.rs. -/
def magic_bytes_required (docgap freq : ℕ) : ℕ :=
  if freq < MAGIC_F then
    vbyte_bytes_required (((docgap + (U32 - 1)) % U32 * MAGIC_F + freq) % U32)
  else
    vbyte_bytes_required (docgap * MAGIC_F % U32) +
      vbyte_bytes_required ((freq - MAGIC_F + 1) % U32)

/-- The docgap loop of `PostingList::bytes_to_serialize`. -/
def serializedSizeGo : List Posting → ℕ → ℕ
  | [], _ => 0
  | p :: rest, last =>
    magic_bytes_required (if last > 0 then p.doc_id - last else p.doc_id) p.tf +
      serializedSizeGo rest p.doc_id

/-- `PostingList::bytes_to_serialize`: sort, then one vbyte for the
length plus the double-vbyte size of each (gap, tf). -/
def bytes_to_serialize (pl : PostingListM) : ℕ :=
  vbyte_bytes_required (sortPostings pl).length +
    serializedSizeGo (sortPostings pl) 0

/-- The offset-table update loop of `InvertedFile::save`: iterate the
cached `(tokid, pl)` pairs, record
`offsets.insert(tokid, PostInfo { offset: current_position, len })` via
`Vec::insert`, and advance the append position by the serialized size.
`none` models the `Vec::insert` panic. -/
def saveOffsets : List (ℕ × PostingListM) → List PostInfo → ℕ →
    Option (List PostInfo)
  | [], offsets, _ => some offsets
  | (tokid, pl) :: rest, offsets, pos =>
    let bytes := bytes_to_serialize pl
    match vecInsert offsets tokid ⟨pos, bytes⟩ with
    | some offsets' => saveOffsets rest offsets' (pos + bytes)
    | none => none

/-- Claim C3 evaluation at the failing input: a fresh `InvertedFile`
(`offsets = []`, a fresh inverted file, position 0) holding one cached
posting list for tokid 1.  `save` executes `offsets.insert(1, …)` on the
empty vector, whose insertion index 1 exceeds the length 0: `Vec::insert`
panics, so `save` never records `offsets[tokid]` as claimed.  On an
already-populated offset table, `Vec::insert` shifts the later entries
instead of replacing in place (second conjunct). -/
theorem invfile_save_offsets_panics :
    saveOffsets [(1, [⟨1, 1⟩])] [] 0 = none ∧
    vecInsert ([⟨0, 3⟩, ⟨3, 4⟩, ⟨7, 5⟩] : List PostInfo) 1 ⟨12, 6⟩ =
      some [⟨0, 3⟩, ⟨12, 6⟩, ⟨3, 4⟩, ⟨7, 5⟩] ∧
    ([⟨0, 3⟩, ⟨12, 6⟩, ⟨3, 4⟩, ⟨7, 5⟩] : List PostInfo) ≠
      [⟨0, 3⟩, ⟨12, 6⟩, ⟨7, 5⟩] := by
  decide

/-! ## src/classifier.rs — Pegasos-style SGD training

`f32::exp` and `f32::sqrt` are kept abstract as parameters `expF` and
`sqrtF`; the random `choose` calls are driven by explicit index oracles
`ia ib : ℕ → ℕ` (reduced mod the list length).  None of the proved
properties depend on these parameters.  `w[i]` indexing panics out of
bounds in the source; the model's `List.getD`/`List.set` are total, with
the id-bound hypothesis where relevant.
-/

/-- `Classifier::MIN_SCALE` (`0.00000000001`). -/
def MIN_SCALE : ℚ := 1 / 100000000000

/-- `Classifier::scale_to_one`: fold the lazy scale into `w`. -/
def Classifier.scale_to_one (c : Classifier) : Classifier :=
  { c with w := c.w.map (fun wt => wt * c.scale), scale := 1 }

/-- `Classifier::scale_by`. -/
def Classifier.scale_by (c : Classifier) (sf : ℚ) : Classifier :=
  let c1 := if c.scale < MIN_SCALE then c.scale_to_one else c
  let c2 := { c1 with squared_norm := c1.squared_norm * (sf * sf) }
  if sf > 0 then { c2 with scale := c2.scale * sf } else c2

/-- The loop body of `Classifier::add_vector`: the state is the running
inner product and `w`; note the source reads `w[feat.id]` before updating
it within one iteration. -/
def addVecStep (cscale x_scale : ℚ) (st : ℚ × List ℚ)
    (feat : FeaturePair) : ℚ × List ℚ :=
  let v := feat.value * x_scale
  (st.1 + st.2.getD feat.id 0 * v,
   st.2.set feat.id (st.2.getD feat.id 0 + v / cscale))

/-- `Classifier::add_vector`: one pass over the sparse vector, updating
the running inner product and `w[feat.id]` in sequence. -/
def Classifier.add_vector (c : Classifier) (x : FeatureVec)
    (x_scale : ℚ) : Classifier :=
  let r := x.features.foldl (addVecStep c.scale x_scale) (0, c.w)
  { c with
    w := r.2
    squared_norm :=
      c.squared_norm + x.squared_norm * x_scale * x_scale + 2 * c.scale * r.1 }

/-- `Classifier::inner_product_on_difference`. -/
def Classifier.inner_product_on_difference (c : Classifier)
    (a b : FeatureVec) : ℚ :=
  c.inner_product a + c.inner_product b * (-1)

/-- The Pegasos projection at the end of each `train` iteration:
`pv = 1 / sqrt(lambda * squared_norm)` of the model at that point; scale
by `pv` when `pv < 1`. -/
def projectStep (sqrtF : ℚ → ℚ) (c : Classifier) : Classifier :=
  let pv := 1 / sqrtF (c.lambda * c.squared_norm)
  if pv < 1 then c.scale_by pv else c

/-- One iteration of the `train` loop: pick one positive and one negative,
compute the logistic loss at the margin, regularize, apply the gradient
when the loss is non-zero, then project. -/
def trainStep (expF sqrtF : ℚ → ℚ) (pos neg : List FeatureVec)
    (ia ib : ℕ) (i : ℕ) (c : Classifier) : Classifier :=
  let eta := 1 / (c.lambda * ((i : ℚ) + 1))
  let a := pos.getD (ia % pos.length) ⟨"", [], 0⟩
  let b := neg.getD (ib % neg.length) ⟨"", [], 0⟩
  let ip := c.inner_product_on_difference a b
  let loss := 1 / (1 + expF ip)
  let sf := 1 - eta * c.lambda
  let c1 := if sf > MIN_SCALE then c.scale_by sf else c.scale_by MIN_SCALE
  let c2 :=
    if loss ≠ 0 then
      (c1.add_vector a (eta * loss)).add_vector b (-1 * (eta * loss))
    else c1
  projectStep sqrtF c2

/-- `Classifier::train`: `num_iters` SGD steps followed by
`scale_to_one`.  The trailing precision/recall computation only prints.
The `assert!` guards (both example lists non-empty) are carried as
hypotheses by the theorems. -/
def Classifier.train (expF sqrtF : ℚ → ℚ) (ia ib : ℕ → ℕ)
    (c : Classifier) (pos neg : List FeatureVec) : Classifier :=
  Classifier.scale_to_one
    ((List.range c.num_iters).foldl
      (fun acc i => trainStep expF sqrtF pos neg (ia i) (ib i) i acc) c)

/-- The number of non-zero entries of `w`. -/
def nonzeroCount (w : List ℚ) : ℕ :=
  w.countP (fun q => decide (q ≠ 0))

/-- The set of indices of non-zero entries of `w`. -/
def nonzeroIds (w : List ℚ) : Finset ℕ :=
  (Finset.range w.length).filter (fun i => w.getD i 0 ≠ 0)

/-- The set of feature ids of a sparse vector. -/
def featureIds (fs : List FeaturePair) : Finset ℕ :=
  fs.foldr (fun fp s => insert fp.id s) ∅

/-- The set of feature ids of one feature vector. -/
def fvIds (x : FeatureVec) : Finset ℕ :=
  featureIds x.features

/-- The union of feature ids across a list of feature vectors. -/
def featIds (fvs : List FeatureVec) : Finset ℕ :=
  fvs.foldr (fun fv s => fvIds fv ∪ s) ∅

theorem nonzeroCount_eq_card (w : List ℚ) :
    nonzeroCount w = (nonzeroIds w).card := by
  induction w using List.reverseRecOn with
  | nil => rfl
  | append_singleton w a ih =>
    rw [nonzeroCount, List.countP_append, ← nonzeroCount, ih]
    have hids : nonzeroIds (w ++ [a]) =
        if a ≠ 0 then insert w.length (nonzeroIds w) else nonzeroIds w := by
      unfold nonzeroIds
      rw [List.length_append, List.length_singleton, Finset.range_add_one,
        Finset.filter_insert]
      have hat : (w ++ [a]).getD w.length 0 = a := by
        rw [List.getD_append_right w [a] 0 w.length (le_refl _)]
        simp
      have hsame : ∀ i ∈ Finset.range w.length,
          ((w ++ [a]).getD i 0 ≠ 0) = (w.getD i 0 ≠ 0) := by
        intro i hi
        rw [Finset.mem_range] at hi
        rw [List.getD_append _ _ _ _ hi]
      rw [hat, Finset.filter_congr fun i hi => by rw [hsame i hi]]
    by_cases ha : a = 0
    · rw [hids]
      simp [ha, List.countP, List.countP.go]
    · rw [hids, if_pos ha, Finset.card_insert_of_not_mem (by
        simp [nonzeroIds])]
      simp [List.countP, List.countP.go, ha]

theorem nonzeroIds_map_mul (w : List ℚ) (s : ℚ) :
    nonzeroIds (w.map (fun wt => wt * s)) ⊆ nonzeroIds w := by
  intro i hi
  simp only [nonzeroIds, Finset.mem_filter, Finset.mem_range,
    List.length_map] at hi ⊢
  obtain ⟨hlen, hnz⟩ := hi
  refine ⟨hlen, fun h0 => hnz ?_⟩
  rw [List.getD_eq_getElem?_getD, List.getElem?_map,
    List.getElem?_eq_getElem hlen]
  rw [List.getD_eq_getElem?_getD, List.getElem?_eq_getElem hlen] at h0
  simp only [Option.getD_some] at h0
  simp [h0]

theorem nonzeroIds_set (w : List ℚ) (j : ℕ) (v : ℚ) :
    nonzeroIds (w.set j v) ⊆ insert j (nonzeroIds w) := by
  intro i hi
  simp only [nonzeroIds, Finset.mem_filter, Finset.mem_range,
    List.length_set] at hi
  obtain ⟨hlen, hnz⟩ := hi
  by_cases hij : i = j
  · exact hij ▸ Finset.mem_insert_self i _
  · refine Finset.mem_insert_of_mem ?_
    simp only [nonzeroIds, Finset.mem_filter, Finset.mem_range]
    refine ⟨hlen, fun h0 => hnz ?_⟩
    rw [List.getD_eq_getElem?_getD,
      List.getElem?_set_ne (fun h => hij h.symm),
      ← List.getD_eq_getElem?_getD]
    exact h0

theorem scale_to_one_ids (c : Classifier) :
    nonzeroIds c.scale_to_one.w ⊆ nonzeroIds c.w :=
  nonzeroIds_map_mul c.w c.scale

theorem scale_by_ids (c : Classifier) (sf : ℚ) :
    nonzeroIds (c.scale_by sf).w ⊆ nonzeroIds c.w := by
  have hw : (c.scale_by sf).w =
      if c.scale < MIN_SCALE then c.scale_to_one.w else c.w := by
    unfold Classifier.scale_by
    by_cases h : c.scale < MIN_SCALE <;> by_cases h2 : sf > 0 <;>
      simp [h, h2]
  rw [hw]
  split
  · exact scale_to_one_ids c
  · exact Finset.Subset.refl _

theorem addVecStep_fold_ids (cs xs : ℚ) :
    ∀ (fs : List FeaturePair) (st : ℚ × List ℚ),
    nonzeroIds (fs.foldl (addVecStep cs xs) st).2 ⊆
      nonzeroIds st.2 ∪ featureIds fs := by
  intro fs
  induction fs with
  | nil =>
    intro st
    simp only [List.foldl_nil, featureIds, List.foldr_nil]
    exact Finset.subset_union_left
  | cons fp fs ih =>
    intro st
    rw [List.foldl_cons]
    refine Finset.Subset.trans (ih _) (Finset.union_subset ?_ ?_)
    · have hset : nonzeroIds (addVecStep cs xs st fp).2 ⊆
          insert fp.id (nonzeroIds st.2) := nonzeroIds_set _ _ _
      refine Finset.Subset.trans hset ?_
      intro i hi
      rcases Finset.mem_insert.mp hi with h | h
      · exact Finset.mem_union_right _ (by
          simp [featureIds, h])
      · exact Finset.mem_union_left _ h
    · intro i hi
      exact Finset.mem_union_right _ (by
        simp only [featureIds, List.foldr_cons]
        exact Finset.mem_insert_of_mem hi)

theorem add_vector_ids (c : Classifier) (x : FeatureVec) (xs : ℚ) :
    nonzeroIds (c.add_vector x xs).w ⊆ nonzeroIds c.w ∪ fvIds x :=
  addVecStep_fold_ids c.scale xs x.features (0, c.w)

theorem fvIds_mem_subset {x : FeatureVec} :
    ∀ {l : List FeatureVec}, x ∈ l → fvIds x ⊆ featIds l := by
  intro l
  induction l with
  | nil => intro h; exact absurd h (List.not_mem_nil x)
  | cons y ys ih =>
    intro h
    rcases List.mem_cons.mp h with h | h
    · subst h
      exact Finset.subset_union_left
    · exact Finset.Subset.trans (ih h) Finset.subset_union_right

theorem fvIds_getD_subset (l : List FeatureVec) (k : ℕ) :
    fvIds (l.getD (k % l.length) ⟨"", [], 0⟩) ⊆ featIds l := by
  cases l with
  | nil => intro i hi; simp [fvIds, featureIds] at hi
  | cons y ys =>
    have hlt : k % (y :: ys).length < (y :: ys).length :=
      Nat.mod_lt _ (by simp)
    rw [List.getD_eq_getElem _ _ hlt]
    exact fvIds_mem_subset (List.getElem_mem hlt)

theorem projectStep_ids (sqrtF : ℚ → ℚ) (c : Classifier) :
    nonzeroIds (projectStep sqrtF c).w ⊆ nonzeroIds c.w := by
  unfold projectStep
  dsimp only
  split
  · exact scale_by_ids _ _
  · exact Finset.Subset.refl _

theorem trainStep_ids (expF sqrtF : ℚ → ℚ) (pos neg : List FeatureVec)
    (ia ib i : ℕ) (c : Classifier) :
    nonzeroIds (trainStep expF sqrtF pos neg ia ib i c).w ⊆
      nonzeroIds c.w ∪ (featIds pos ∪ featIds neg) := by
  have hA : fvIds (pos.getD (ia % pos.length) ⟨"", [], 0⟩) ⊆ featIds pos :=
    fvIds_getD_subset pos ia
  have hB : fvIds (neg.getD (ib % neg.length) ⟨"", [], 0⟩) ⊆ featIds neg :=
    fvIds_getD_subset neg ib
  have hadd2 : ∀ (d : Classifier) (ea eb : ℚ),
      nonzeroIds d.w ⊆ nonzeroIds c.w →
      nonzeroIds ((d.add_vector (pos.getD (ia % pos.length) ⟨"", [], 0⟩)
          ea).add_vector (neg.getD (ib % neg.length) ⟨"", [], 0⟩) eb).w ⊆
        nonzeroIds c.w ∪ (featIds pos ∪ featIds neg) := by
    intro d ea eb hd
    refine Finset.Subset.trans (add_vector_ids _ _ _)
      (Finset.union_subset ?_ ?_)
    · refine Finset.Subset.trans (add_vector_ids _ _ _)
        (Finset.union_subset ?_ ?_)
      · exact Finset.Subset.trans hd Finset.subset_union_left
      · exact Finset.Subset.trans hA (Finset.Subset.trans
          Finset.subset_union_left Finset.subset_union_right)
    · exact Finset.Subset.trans hB (Finset.Subset.trans
        Finset.subset_union_right Finset.subset_union_right)
  simp only [trainStep]
  refine Finset.Subset.trans (projectStep_ids _ _) ?_
  split
  · refine hadd2 _ _ _ ?_
    split
    · exact scale_by_ids _ _
    · exact scale_by_ids _ _
  · refine Finset.Subset.trans ?_ Finset.subset_union_left
    split
    · exact scale_by_ids _ _
    · exact scale_by_ids _ _

theorem train_loop_ids (expF sqrtF : ℚ → ℚ) (ia ib : ℕ → ℕ)
    (pos neg : List FeatureVec) :
    ∀ (l : List ℕ) (c : Classifier),
    nonzeroIds (l.foldl
      (fun acc i => trainStep expF sqrtF pos neg (ia i) (ib i) i acc) c).w ⊆
      nonzeroIds c.w ∪ (featIds pos ∪ featIds neg) := by
  intro l
  induction l with
  | nil =>
    intro c
    simp only [List.foldl_nil]
    exact Finset.subset_union_left
  | cons j l ih =>
    intro c
    rw [List.foldl_cons]
    refine Finset.Subset.trans (ih _) (Finset.union_subset ?_ ?_)
    · exact trainStep_ids expF sqrtF pos neg (ia j) (ib j) j c
    · exact Finset.subset_union_right

/-- Claim C7 counterexample: `train` called on a model that already has
non-zero weights at features 2 and 3, with one positive and one negative
example touching only feature 1 and `num_iters = 0`.  The final model has
two non-zero entries in `w`, but the union of feature ids across the
inputs has size 1 — the claimed bound fails (the final `scale == 1.0` does
hold). -/
theorem train_support_cex :
    nonzeroCount (Classifier.train (fun _ => 0) (fun _ => 0) (fun _ => 0)
      (fun _ => 0) ⟨1 / 10000, 0, [0, 0, 1, 1], 1, 0⟩
      [⟨"a", [⟨1, 1⟩], 0⟩] [⟨"b", [⟨1, 1⟩], 0⟩]).w = 2 ∧
    (featIds [⟨"a", [⟨1, 1⟩], 0⟩] ∪ featIds [⟨"b", [⟨1, 1⟩], 0⟩]).card = 1 ∧
    ¬ (2 : ℕ) ≤ 1 := by
  refine ⟨?_, ?_, by omega⟩
  · norm_num [Classifier.train, Classifier.scale_to_one, List.range,
      List.range.loop, nonzeroCount, List.countP, List.countP.go]
  · decide

/-- Claim C7 (amended): on any call to `Classifier::train` with at least
one positive and one negative example, the final model has `scale == 1.0`
(`scale_to_one` is applied), and the number of non-zero entries of `w` is
at most the size of the union of the feature ids occurring across the
inputs together with the indices that were already non-zero in `w` when
the call began.  This holds for every interpretation of `f32::exp` and
`f32::sqrt` and every random choice sequence. -/
theorem train_scale_one_and_support (expF sqrtF : ℚ → ℚ) (ia ib : ℕ → ℕ)
    (c : Classifier) (pos neg : List FeatureVec)
    (hpos : pos ≠ []) (hneg : neg ≠ []) :
    (Classifier.train expF sqrtF ia ib c pos neg).scale = 1 ∧
    nonzeroCount (Classifier.train expF sqrtF ia ib c pos neg).w ≤
      (nonzeroIds c.w ∪ (featIds pos ∪ featIds neg)).card := by
  constructor
  · rfl
  · rw [nonzeroCount_eq_card]
    refine Finset.card_le_card ?_
    refine Finset.Subset.trans (scale_to_one_ids _) ?_
    exact train_loop_ids expF sqrtF ia ib pos neg _ c

/-- Claim C7 witness: a fresh two-feature model trained on one positive
and one negative example. -/
theorem train_scale_one_and_support_witness :
    (Classifier.train (fun _ => 0) (fun _ => 0) (fun _ => 0) (fun _ => 0)
      ⟨1 / 10000, 1, [0, 0], 1, 0⟩
      [⟨"a", [⟨1, 1⟩], 0⟩] [⟨"b", [⟨1, 1⟩], 0⟩]).scale = 1 ∧
    nonzeroCount (Classifier.train (fun _ => 0) (fun _ => 0) (fun _ => 0)
      (fun _ => 0) ⟨1 / 10000, 1, [0, 0], 1, 0⟩
      [⟨"a", [⟨1, 1⟩], 0⟩] [⟨"b", [⟨1, 1⟩], 0⟩]).w ≤
      (nonzeroIds [0, 0] ∪
        (featIds [⟨"a", [⟨1, 1⟩], 0⟩] ∪ featIds [⟨"b", [⟨1, 1⟩], 0⟩])).card :=
  train_scale_one_and_support (fun _ => 0) (fun _ => 0) (fun _ => 0)
    (fun _ => 0) ⟨1 / 10000, 1, [0, 0], 1, 0⟩ _ _
    (List.cons_ne_nil _ _) (List.cons_ne_nil _ _)

/-! ## src/extsort.rs — external sort

Records of type `T : Encode + Decode + Ord + Clone + Send` are modelled
over `{α} [LinearOrder α]` (the derived `Ord` of the record types used is
a total order whose equality is structural).  `buffer.par_sort()` (rayon's
stable sort by `Ord`) is modelled by the stable `List.insertionSort`.
The `BinaryHeap<ObjAndFileIndex<T>>` k-way merge holds the front record of
each non-exhausted run with its run index, reversed-`Ord` so `pop`
returns the least record; its order among equal records is unspecified,
refined here deterministically to the earliest run.
-/

/-- `buffer.par_sort()`: a stable sort of the run buffer. -/
def runSort {α : Type} [LinearOrder α] (buf : List α) : List α :=
  buf.insertionSort (· ≤ ·)

/-- The read loop of `divide_into_runs`: push each decoded record, flush a
sorted run whenever the buffer reaches `buffer_size`, and flush the
non-empty remainder at end of input. -/
def divideRunsGo {α : Type} [LinearOrder α] (B : ℕ) :
    List α → List α → List (List α)
  | [], buf => if buf.isEmpty then [] else [runSort buf]
  | x :: xs, buf =>
    let buf' := buf ++ [x]
    if buf'.length = B then runSort buf' :: divideRunsGo B xs []
    else divideRunsGo B xs buf'

/-- `divide_into_runs` from extsort.rs. -/
def divide_into_runs {α : Type} [LinearOrder α] (B : ℕ) (l : List α) :
    List (List α) :=
  divideRunsGo B l []

/-- One `heap.pop()` of the k-way merge: among the runs with records
remaining, take the run whose front record is least (ties to the earliest
run) and advance it.  `none` when every run is exhausted. -/
def popMinRun {α : Type} [LinearOrder α] :
    List (List α) → Option (α × List (List α))
  | [] => none
  | [] :: rs =>
    match popMinRun rs with
    | none => none
    | some r => some (r.1, [] :: r.2)
  | (x :: xs) :: rs =>
    match popMinRun rs with
    | none => some (x, xs :: rs)
    | some r => if x ≤ r.1 then some (x, xs :: rs) else some (r.1, (x :: xs) :: r.2)

theorem popMinRun_sum {α : Type} [LinearOrder α] :
    ∀ (rs : List (List α)) (r : α × List (List α)), popMinRun rs = some r →
    (r.2.map List.length).sum + 1 = (rs.map List.length).sum := by
  intro rs
  induction rs with
  | nil => intro r h; simp [popMinRun] at h
  | cons t rs ih =>
    intro r h
    cases t with
    | nil =>
      cases heq : popMinRun rs with
      | none =>
        simp only [popMinRun, heq] at h
        exact Option.noConfusion h
      | some p =>
        simp only [popMinRun, heq, Option.some.injEq] at h
        have hsum := ih p heq
        rw [← h]
        simp only [List.map_cons, List.sum_cons, List.length_nil]
        omega
    | cons x xs =>
      cases heq : popMinRun rs with
      | none =>
        simp only [popMinRun, heq, Option.some.injEq] at h
        rw [← h]
        simp only [List.map_cons, List.sum_cons, List.length_cons]
        omega
      | some p =>
        have hsum := ih p heq
        by_cases hle : x ≤ p.1
        · simp only [popMinRun, heq, if_pos hle, Option.some.injEq] at h
          rw [← h]
          simp only [List.map_cons, List.sum_cons, List.length_cons]
          omega
        · simp only [popMinRun, heq, if_neg hle, Option.some.injEq] at h
          rw [← h]
          simp only [List.map_cons, List.sum_cons, List.length_cons]
          omega

theorem popMinRun_none {α : Type} [LinearOrder α] :
    ∀ (rs : List (List α)), popMinRun rs = none → rs.flatten = [] := by
  intro rs
  induction rs with
  | nil => intro _; rfl
  | cons t rs ih =>
    intro h
    cases t with
    | nil =>
      cases heq : popMinRun rs with
      | none => simp [List.flatten_cons, ih heq]
      | some p =>
        simp only [popMinRun, heq] at h
        exact Option.noConfusion h
    | cons x xs =>
      cases heq : popMinRun rs with
      | none =>
        simp only [popMinRun, heq] at h
        exact Option.noConfusion h
      | some p =>
        by_cases hle : x ≤ p.1
        · simp only [popMinRun, heq, if_pos hle] at h
          exact Option.noConfusion h
        · simp only [popMinRun, heq, if_neg hle] at h
          exact Option.noConfusion h

theorem popMinRun_perm {α : Type} [LinearOrder α] :
    ∀ (rs : List (List α)) (r : α × List (List α)), popMinRun rs = some r →
    List.Perm rs.flatten (r.1 :: r.2.flatten) := by
  intro rs
  induction rs with
  | nil => intro r h; simp [popMinRun] at h
  | cons t rs ih =>
    intro r h
    cases t with
    | nil =>
      cases heq : popMinRun rs with
      | none =>
        simp only [popMinRun, heq] at h
        exact Option.noConfusion h
      | some p =>
        simp only [popMinRun, heq, Option.some.injEq] at h
        rw [← h]
        simpa using ih p heq
    | cons x xs =>
      cases heq : popMinRun rs with
      | none =>
        simp only [popMinRun, heq, Option.some.injEq] at h
        rw [← h]
        simp
      | some p =>
        by_cases hle : x ≤ p.1
        · simp only [popMinRun, heq, if_pos hle, Option.some.injEq] at h
          rw [← h]
          simp
        · simp only [popMinRun, heq, if_neg hle, Option.some.injEq] at h
          rw [← h]
          have hp := ih p heq
          simp only [List.flatten_cons]
          exact (List.Perm.append_left (x :: xs) hp).trans List.perm_middle

theorem popMinRun_le {α : Type} [LinearOrder α] :
    ∀ (rs : List (List α)) (r : α × List (List α)), popMinRun rs = some r →
    (∀ t ∈ rs, List.Sorted (· ≤ ·) t) → ∀ b ∈ rs.flatten, r.1 ≤ b := by
  intro rs
  induction rs with
  | nil => intro r h; simp [popMinRun] at h
  | cons t rs ih =>
    intro r h hs b hb
    have hst : List.Sorted (· ≤ ·) t := hs t (by simp)
    have hsrs : ∀ u ∈ rs, List.Sorted (· ≤ ·) u :=
      fun u hu => hs u (by simp [hu])
    cases t with
    | nil =>
      cases heq : popMinRun rs with
      | none =>
        simp only [popMinRun, heq] at h
        exact Option.noConfusion h
      | some p =>
        simp only [popMinRun, heq, Option.some.injEq] at h
        simp only [List.flatten_cons, List.nil_append] at hb
        have := ih p heq hsrs b hb
        rw [← h]
        exact this
    | cons x xs =>
      simp only [List.flatten_cons, List.mem_append] at hb
      have hhead : ∀ u ∈ x :: xs, x ≤ u := by
        intro u hu
        rcases List.mem_cons.mp hu with h1 | h1
        · exact h1 ▸ le_refl x
        · exact (List.sorted_cons.mp hst).1 u h1
      cases heq : popMinRun rs with
      | none =>
        simp only [popMinRun, heq, Option.some.injEq] at h
        rw [← h]
        rcases hb with h1 | h1
        · exact hhead b h1
        · rw [popMinRun_none rs heq] at h1
          exact absurd h1 (List.not_mem_nil b)
      | some p =>
        have hrec := ih p heq hsrs
        by_cases hle : x ≤ p.1
        · simp only [popMinRun, heq, if_pos hle, Option.some.injEq] at h
          rw [← h]
          rcases hb with h1 | h1
          · exact hhead b h1
          · exact le_trans hle (hrec b h1)
        · simp only [popMinRun, heq, if_neg hle, Option.some.injEq] at h
          rw [← h]
          rcases hb with h1 | h1
          · exact le_trans (le_of_not_le hle) (hhead b h1)
          · exact hrec b h1

theorem popMinRun_sorted {α : Type} [LinearOrder α] :
    ∀ (rs : List (List α)) (r : α × List (List α)), popMinRun rs = some r →
    (∀ t ∈ rs, List.Sorted (· ≤ ·) t) → ∀ t ∈ r.2, List.Sorted (· ≤ ·) t := by
  intro rs
  induction rs with
  | nil => intro r h; simp [popMinRun] at h
  | cons t rs ih =>
    intro r h hs u hu
    have hst : List.Sorted (· ≤ ·) t := hs t (by simp)
    have hsrs : ∀ v ∈ rs, List.Sorted (· ≤ ·) v :=
      fun v hv => hs v (by simp [hv])
    cases t with
    | nil =>
      cases heq : popMinRun rs with
      | none =>
        simp only [popMinRun, heq] at h
        exact Option.noConfusion h
      | some p =>
        simp only [popMinRun, heq, Option.some.injEq] at h
        rw [← h] at hu
        rcases List.mem_cons.mp hu with h1 | h1
        · exact h1 ▸ List.sorted_nil
        · exact ih p heq hsrs u h1
    | cons x xs =>
      have hxs : List.Sorted (· ≤ ·) xs := (List.sorted_cons.mp hst).2
      cases heq : popMinRun rs with
      | none =>
        simp only [popMinRun, heq, Option.some.injEq] at h
        rw [← h] at hu
        rcases List.mem_cons.mp hu with h1 | h1
        · exact h1 ▸ hxs
        · exact hsrs u h1
      | some p =>
        by_cases hle : x ≤ p.1
        · simp only [popMinRun, heq, if_pos hle, Option.some.injEq] at h
          rw [← h] at hu
          rcases List.mem_cons.mp hu with h1 | h1
          · exact h1 ▸ hxs
          · exact hsrs u h1
        · simp only [popMinRun, heq, if_neg hle, Option.some.injEq] at h
          rw [← h] at hu
          rcases List.mem_cons.mp hu with h1 | h1
          · exact h1 ▸ hst
          · exact ih p heq hsrs u h1

/-- The merge loop of `merge_runs`: pop the least front record, write it,
advance that run, until the heap empties. -/
def merge_runs {α : Type} [LinearOrder α] (rs : List (List α)) : List α :=
  match h : popMinRun rs with
  | none => []
  | some r => r.1 :: merge_runs r.2
termination_by (rs.map List.length).sum
decreasing_by
  have := popMinRun_sum rs r h
  omega

theorem merge_runs_eq_none {α : Type} [LinearOrder α] {rs : List (List α)}
    (h : popMinRun rs = none) : merge_runs rs = [] := by
  rw [merge_runs]
  split
  · rfl
  · next r heq => rw [h] at heq; exact Option.noConfusion heq

theorem merge_runs_eq_some {α : Type} [LinearOrder α] {rs : List (List α)}
    {r : α × List (List α)} (h : popMinRun rs = some r) :
    merge_runs rs = r.1 :: merge_runs r.2 := by
  rw [merge_runs]
  split
  · next heq => rw [h] at heq; exact Option.noConfusion heq
  · next r' heq =>
    rw [h] at heq
    cases heq
    rfl

theorem merge_runs_perm {α : Type} [LinearOrder α] (rs : List (List α)) :
    List.Perm (merge_runs rs) rs.flatten := by
  generalize hn : (rs.map List.length).sum = n
  induction n using Nat.strong_induction_on generalizing rs with
  | _ n ih =>
    cases heq : popMinRun rs with
    | none =>
      rw [merge_runs_eq_none heq, popMinRun_none rs heq]
    | some r =>
      rw [merge_runs_eq_some heq]
      have hpm := popMinRun_perm rs r heq
      have hsum := popMinRun_sum rs r heq
      have hlt : (r.2.map List.length).sum < n := by omega
      exact (List.Perm.cons r.1 (ih _ hlt r.2 rfl)).trans hpm.symm

theorem merge_runs_sorted {α : Type} [LinearOrder α] (rs : List (List α))
    (hs : ∀ t ∈ rs, List.Sorted (· ≤ ·) t) :
    List.Sorted (· ≤ ·) (merge_runs rs) := by
  generalize hn : (rs.map List.length).sum = n
  induction n using Nat.strong_induction_on generalizing rs with
  | _ n ih =>
    cases heq : popMinRun rs with
    | none => rw [merge_runs_eq_none heq]; exact List.sorted_nil
    | some r =>
      rw [merge_runs_eq_some heq]
      have hsum := popMinRun_sum rs r heq
      have hlt : (r.2.map List.length).sum < n := by omega
      refine List.sorted_cons.mpr ⟨?_, ?_⟩
      · intro b hb
        have hbf : b ∈ r.2.flatten :=
          (merge_runs_perm r.2).mem_iff.mp hb
        have hbr : b ∈ rs.flatten :=
          (popMinRun_perm rs r heq).symm.mem_iff.mp (List.mem_cons_of_mem _ hbf)
        exact popMinRun_le rs r heq hs b hbr
      · exact ih _ hlt r.2 (popMinRun_sorted rs r heq hs) rfl

theorem divideRunsGo_flatten_perm {α : Type} [LinearOrder α] (B : ℕ) :
    ∀ (l buf : List α),
    List.Perm (divideRunsGo B l buf).flatten (buf ++ l) := by
  intro l
  induction l with
  | nil =>
    intro buf
    by_cases hb : buf.isEmpty
    · rw [List.isEmpty_iff.mp hb]
      simp [divideRunsGo]
    · simp only [divideRunsGo, hb, Bool.false_eq_true, if_false,
        List.flatten_cons, List.flatten_nil, List.append_nil]
      simpa [runSort] using List.perm_insertionSort (· ≤ ·) buf
  | cons x xs ih =>
    intro buf
    simp only [divideRunsGo]
    by_cases hlen : (buf ++ [x]).length = B
    · rw [if_pos hlen]
      rw [List.flatten_cons]
      have h1 : List.Perm (runSort (buf ++ [x])) (buf ++ [x]) :=
        List.perm_insertionSort (· ≤ ·) (buf ++ [x])
      have h2 := ih []
      rw [List.nil_append] at h2
      have h3 := List.Perm.append h1 h2
      refine h3.trans (List.Perm.of_eq ?_)
      rw [List.append_assoc, List.singleton_append]
    · rw [if_neg hlen]
      refine (ih (buf ++ [x])).trans (List.Perm.of_eq ?_)
      rw [List.append_assoc, List.singleton_append]

theorem divideRunsGo_sorted {α : Type} [LinearOrder α] (B : ℕ) :
    ∀ (l buf : List α) (t : List α), t ∈ divideRunsGo B l buf →
    List.Sorted (· ≤ ·) t := by
  intro l
  induction l with
  | nil =>
    intro buf t ht
    by_cases hb : buf.isEmpty
    · simp [divideRunsGo, hb] at ht
    · simp only [divideRunsGo, hb, Bool.false_eq_true, if_false,
        List.mem_singleton] at ht
      exact ht ▸ List.sorted_insertionSort (· ≤ ·) buf
  | cons x xs ih =>
    intro buf t ht
    simp only [divideRunsGo] at ht
    by_cases hlen : (buf ++ [x]).length = B
    · rw [if_pos hlen] at ht
      rcases List.mem_cons.mp ht with h1 | h1
      · exact h1 ▸ List.sorted_insertionSort (· ≤ ·) (buf ++ [x])
      · exact ih [] t h1
    · rw [if_neg hlen] at ht
      exact ih (buf ++ [x]) t ht

/-- `external_sort_from` from extsort.rs: divide the decoded input into
sorted runs, then k-way merge the runs (run files and their deletion, the
scratch directory, and the output flush carry no record content). -/
def external_sort_from {α : Type} [LinearOrder α] (B : ℕ) (l : List α) :
    List α :=
  merge_runs (divide_into_runs B l)

/-- Claim C5: for every input sequence over a linearly ordered record type
and every buffer size `B ≥ 1`, the external sort equals the stable sort of
the input (`insertionSort` is the stable sort; over a linear order a
sorted permutation is unique, so output = stable sort). -/
theorem external_sort_from_eq_sort {α : Type} [LinearOrder α]
    (l : List α) (B : ℕ) (hB : 1 ≤ B) :
    external_sort_from B l = List.insertionSort (· ≤ ·) l := by
  have hperm : List.Perm (external_sort_from B l) l := by
    refine (merge_runs_perm _).trans ?_
    simpa [divide_into_runs] using divideRunsGo_flatten_perm B l []
  have hsort : List.Sorted (· ≤ ·) (external_sort_from B l) :=
    merge_runs_sorted _ (fun t ht => divideRunsGo_sorted B l [] t ht)
  exact List.eq_of_perm_of_sorted
    (hperm.trans (List.perm_insertionSort (· ≤ ·) l).symm) hsort
    (List.sorted_insertionSort (· ≤ ·) l)

/-- Claim C5 witness: a concrete sort at buffer size 2. -/
theorem external_sort_from_eq_sort_witness :
    external_sort_from 2 [3, 1, 2, 2, 5] =
      List.insertionSort (· ≤ ·) [3, 1, 2, 2, 5] :=
  external_sort_from_eq_sort [3, 1, 2, 2, 5] 2 (by norm_num)

/-- The records decoded before the first failure: the run loop matches
`bincode::decode_from_std_read` and breaks on `Err(_)`, clean end of input
and a mid-stream decode error alike. -/
def okPrefix {ε α : Type} : List (Except ε α) → List α
  | [] => []
  | .ok a :: rest => a :: okPrefix rest
  | .error _ :: _ => []

/-- `divide_into_runs` reading a fallible decode stream: `Err(_) => break`
ends the input exactly like clean end of input, flushing the partial
buffer as the final run; the error value is dropped. -/
def divideRunsStreamGo {ε α : Type} [LinearOrder α] (B : ℕ) :
    List (Except ε α) → List α → List (List α)
  | [], buf => if buf.isEmpty then [] else [runSort buf]
  | .error _ :: _, buf => if buf.isEmpty then [] else [runSort buf]
  | .ok x :: xs, buf =>
    let buf' := buf ++ [x]
    if buf'.length = B then runSort buf' :: divideRunsStreamGo B xs []
    else divideRunsStreamGo B xs buf'

/-- `external_sort_from` on a fallible decode stream.  Run files are
written by the sort itself and re-decoding them cannot fail in the model;
`merge_runs`' own `Err(_) => continue` likewise drops errors, so the only
`Err` results of the Rust function are filesystem errors, which have no
counterpart here: the function always completes with `Ok`. -/
def external_sort_from_stream {ε α : Type} [LinearOrder α] (B : ℕ)
    (l : List (Except ε α)) : Except ε (List α) :=
  Except.ok (merge_runs (divideRunsStreamGo B l []))

theorem divideRunsStreamGo_eq {ε α : Type} [LinearOrder α] (B : ℕ) :
    ∀ (l : List (Except ε α)) (buf : List α),
    divideRunsStreamGo B l buf = divideRunsGo B (okPrefix l) buf := by
  intro l
  induction l with
  | nil => intro buf; rfl
  | cons e l ih =>
    intro buf
    cases e with
    | error e => rfl
    | ok x =>
      simp only [divideRunsStreamGo, okPrefix, divideRunsGo]
      by_cases hlen : (buf ++ [x]).length = B
      · rw [if_pos hlen, if_pos hlen, ih []]
      · rw [if_neg hlen, if_neg hlen, ih (buf ++ [x])]

/-- Claim C6 counterexample: a decode error after one good record, with
another record beyond it.  `external_sort_from` completes with `Ok` and
output derived from the partial data (`[2]`); no error is surfaced. -/
theorem extsort_swallows_decode_error_cex :
    external_sort_from_stream 1
      [Except.ok (2 : ℕ), Except.error "corrupt record", Except.ok 1] =
      Except.ok [2] ∧
    (Except.ok [2] : Except String (List ℕ)) ≠
      Except.error "corrupt record" := by
  constructor
  · have hd : divideRunsStreamGo 1
        [Except.ok (2 : ℕ), Except.error "corrupt record", Except.ok 1] [] =
        [[2]] := rfl
    rw [external_sort_from_stream, hd,
      @merge_runs_eq_some ℕ _ [[2]] (2, [[]]) rfl,
      @merge_runs_eq_none ℕ _ [[]] rfl]
  · simp

/-- Claim C6 (amended): a decode failure mid-stream is treated as end of
input — the sort completes normally, returning `Ok` of the stable sort of
the records decoded before the failure; the underlying error is not
surfaced. -/
theorem extsort_decode_error_is_eof {ε α : Type} [LinearOrder α]
    (B : ℕ) (hB : 1 ≤ B) (l : List (Except ε α)) :
    external_sort_from_stream B l =
      Except.ok (List.insertionSort (· ≤ ·) (okPrefix l)) := by
  rw [external_sort_from_stream, divideRunsStreamGo_eq]
  rw [show merge_runs (divideRunsGo B (okPrefix l) []) =
      external_sort_from B (okPrefix l) from rfl]
  rw [external_sort_from_eq_sort _ B hB]

/-- Claim C6 (amended) witness. -/
theorem extsort_decode_error_is_eof_witness :
    external_sort_from_stream 1
      [Except.ok (3 : ℕ), Except.ok 1, Except.error "bad", Except.ok 0] =
      Except.ok (List.insertionSort (· ≤ ·) [3, 1]) :=
  extsort_decode_error_is_eof 1 (by norm_num)
    [Except.ok (3 : ℕ), Except.ok 1, Except.error "bad", Except.ok 0]

end Mycal
